import Mathlib

/-!
Verification of the WuKongIM conversation store (`pkg/wkdb`, file
`conversation.go`) and the connection reactor (`pkg/wknet`, `conn.go`),
translated as a shallow embedding.  The store is modelled at the
key-value level of the pebble shard DBs: each conversation row is
decomposed into one key per column, plus a channel index, secondary
indexes (type / createdAt / updatedAt) and a channel-side local-user
reverse index, exactly as `writeConversation` / `writeConversationIndex`
lay them out.  Byte-encoded values (big-endian integers, raw strings)
are modelled by a tagged value type, the encode/decode pair being a
bijection on the stored payloads.
-/

namespace wkdb

/-- Stored values.  The Go code stores raw string bytes, single bytes,
and big-endian uint32/uint64 encodings; index keys carry a nil value
(`unit`).  The tag records which encoder produced the bytes. -/
inductive Val where
  | bytes (s : String)
  | byte (b : Nat)
  | u32 (n : Nat)
  | u64 (n : Nat)
  | unit
  deriving DecidableEq, Repr

/-- Column tags of the conversation table (`key.TableConversation.Column`).
Modelled from the spec: the `key` package is not part of the given
sources; only distinctness and fixedness of the tags matter. -/
def colUid : Nat := 1

def colChannelId : Nat := 2

def colChannelType : Nat := 3

def colType : Nat := 4

def colUnreadCount : Nat := 5

def colReadedToMsgSeq : Nat := 6

def colCreatedAt : Nat := 7

def colUpdatedAt : Nat := 8

def colDeletedAtMsgSeq : Nat := 9

/-- Secondary-index tags (`key.TableConversation.SecondIndex`).
Modelled from the spec: `1` = Type, `2` = CreatedAt, `3` = UpdatedAt. -/
def idxType : Nat := 1

def idxCreatedAt : Nat := 2

def idxUpdatedAt : Nat := 3

/-- Keys of the store.  Modelled from the spec's physical layout:
`column` is a primary column key `P/<uid>/<id>/<columnTag>`, `channelIdx`
the channel index `I/channel/<uid>/<channelId>/<channelType>`,
`secondIdx` a secondary index `I/<kind>/<uid>/<value>/<id>`, and
`localUser` the channel-side reverse index `R/<channelId>/<channelType>/<uid>`. -/
inductive CKey where
  | column (uid : String) (id : Nat) (col : Nat)
  | channelIdx (uid : String) (channelId : String) (channelType : Nat)
  | secondIdx (uid : String) (kind : Nat) (value : Nat) (id : Nat)
  | localUser (channelId : String) (channelType : Nat) (uid : String)
  deriving DecidableEq, Repr

/-- A shard store, as an association list of live keys.  `setK` keeps
keys unique, so the list is a finite map; lookup takes the first hit. -/
abbrev Store := List (CKey × Val)

def lookup (s : Store) (k : CKey) : Option Val :=
  (s.find? (fun kv => kv.1 = k)).map Prod.snd

def setK (s : Store) (k : CKey) (v : Val) : Store :=
  (k, v) :: s.filter (fun kv => ¬ kv.1 = k)

def delK (s : Store) (k : CKey) : Store :=
  s.filter (fun kv => ¬ kv.1 = k)

/-- Does a primary column key of row `(uid, id)` fall in the range
`[NewConversationColumnKey(uid,id,MinColumnKey), …MaxColumnKey)`? -/
def inColRange (uid : String) (id : Nat) : CKey → Bool
  | CKey.column u i _ => u = uid ∧ i = id
  | _ => false

def delRangeK (s : Store) (uid : String) (id : Nat) : Store :=
  s.filter (fun kv => ¬ inColRange uid id kv.1)

/-- One batch operation (`Batch.Set` / `Batch.Delete` / `Batch.DeleteRange`
over a conversation row's column span). -/
inductive BOp where
  | set (k : CKey) (v : Val)
  | del (k : CKey)
  | delRange (uid : String) (id : Nat)
  deriving DecidableEq, Repr

/-- A batch: operations applied in order, atomically on commit. -/
abbrev Batch := List BOp

def applyOp (s : Store) : BOp → Store
  | BOp.set k v => setK s k v
  | BOp.del k => delK s k
  | BOp.delRange uid id => delRangeK s uid id

def applyBatch (s : Store) (b : Batch) : Store :=
  b.foldl applyOp s

/-- The effect of one operation on one key: `some (some v)` if it sets
it, `some none` if it deletes it, `none` if it leaves it alone. -/
def opEffect (op : BOp) (k : CKey) : Option (Option Val) :=
  match op with
  | BOp.set k' v => if k = k' then some (some v) else none
  | BOp.del k' => if k = k' then some none else none
  | BOp.delRange uid id => if inColRange uid id k then some none else none

/-- One step of the batch-effect fold. -/
def effStep (k : CKey) (acc : Option (Option Val)) (op : BOp) : Option (Option Val) :=
  match opEffect op k with
  | some e => some e
  | none => acc

/-- Last-write-wins summary of a batch on one key. -/
def lastEffect (b : Batch) (k : CKey) : Option (Option Val) :=
  b.foldl (effStep k) none

/-- A conversation row (`wkdb.Conversation`).  `tp` is the Go field
`Type` (a reserved word in Lean); timestamps hold the uint64 UnixNano
value stored on disk, `none` modelling a nil `*time.Time`. -/
structure Conversation where
  Id : Nat
  Uid : String
  ChannelId : String
  ChannelType : Nat
  tp : Nat
  UnreadCount : Nat
  ReadToMsgSeq : Nat
  DeletedAtMsgSeq : Nat
  CreatedAt : Option Nat
  UpdatedAt : Option Nat
  deriving DecidableEq, Repr

/-- The `EmptyConversation` sentinel; `IsEmptyConversation` is equality
with it. -/
def EmptyConversation : Conversation :=
  { Id := 0, Uid := "", ChannelId := "", ChannelType := 0, tp := 0,
    UnreadCount := 0, ReadToMsgSeq := 0, DeletedAtMsgSeq := 0,
    CreatedAt := none, UpdatedAt := none }

/-- Store errors surfaced by the conversation operations.  `notFound` is
the `ErrNotFound` sentinel; `closed` / `einval` belong to the reactor. -/
inductive Err where
  | notFound
  | closed
  | einval
  deriving DecidableEq, Repr

def valStr : Option Val → String
  | some (Val.bytes s) => s
  | _ => ""

def valByte : Option Val → Nat
  | some (Val.byte b) => b
  | _ => 0

def valU32 : Option Val → Nat
  | some (Val.u32 n) => n
  | _ => 0

def valU64 : Option Val → Nat
  | some (Val.u64 n) => n
  | _ => 0

/-- int64 reinterpretation of a stored uint64
(`int64(wk.endian.Uint64(v))`). -/
def toInt64 (n : Nat) : Int :=
  if n < 2 ^ 63 then (n : Int) else (n : Int) - 2 ^ 64

/-- Timestamp column decoding in `iterateConversation`: the uint64 value
is cast to int64 `tm` and the time pointer is set only when `tm > 0`. -/
def valTime (v : Option Val) : Option Nat :=
  match v with
  | some (Val.u64 n) => if 0 < toInt64 n then some n else none
  | _ => none

/-- The row assembled by `iterateConversation` for one id: each column
is read from its column key, Go zero values standing in for missing
columns. -/
def assemble (uid : String) (id : Nat) (s : Store) : Conversation :=
  { Id := id
    Uid := valStr (lookup s (CKey.column uid id colUid))
    ChannelId := valStr (lookup s (CKey.column uid id colChannelId))
    ChannelType := valByte (lookup s (CKey.column uid id colChannelType))
    tp := valByte (lookup s (CKey.column uid id colType))
    UnreadCount := valU32 (lookup s (CKey.column uid id colUnreadCount))
    ReadToMsgSeq := valU64 (lookup s (CKey.column uid id colReadedToMsgSeq))
    DeletedAtMsgSeq := valU64 (lookup s (CKey.column uid id colDeletedAtMsgSeq))
    CreatedAt := valTime (lookup s (CKey.column uid id colCreatedAt))
    UpdatedAt := valTime (lookup s (CKey.column uid id colUpdatedAt)) }

/-- All row ids appearing in some primary column key of `uid` (with
multiplicity, in store order). -/
def collectIds (uid : String) (s : Store) : List Nat :=
  s.filterMap (fun kv => match kv.1 with
    | CKey.column u i _ => if u = uid then some i else none
    | _ => none)

/-- The distinct ids of `uid`, in ascending key order: a pebble forward
scan of `P/<uid>/*` visits column keys grouped by id, ids ascending
(big-endian encoding makes lexical order numeric order). -/
def sortedIds (uid : String) (s : Store) : List Nat :=
  List.insertionSort (· ≤ ·) (collectIds uid s).dedup

/-- Does the range `[column uid id min, column uid id max)` contain any
live key?  (`hasData` of a single-row scan.) -/
def hasCols (uid : String) (id : Nat) (s : Store) : Bool :=
  decide (id ∈ collectIds uid s)

/-- The rows yielded by `iterateConversation` over a full `P/<uid>/*`
scan with an always-true callback.  The loop only yields the
accumulated row at an id boundary when `preId != 0`, so a leading id-0
group is dropped unless it is the only group; real ids are nonzero. -/
def rowsOf (uid : String) (s : Store) : List Conversation :=
  match sortedIds uid s with
  | [] => []
  | i :: rest =>
    if i = 0 ∧ rest ≠ [] then rest.map (fun j => assemble uid j s)
    else (i :: rest).map (fun j => assemble uid j s)

/-- `getConversationIdByChannel`: the channel index lookup, 0 when the
key is absent (`pebble.ErrNotFound`). -/
def getConversationIdByChannel (uid channelId : String) (channelType : Nat)
    (s : Store) : Nat :=
  valU64 (lookup s (CKey.channelIdx uid channelId channelType))

/-- `GetConversation`: resolve the id via the channel index, scan that
row's columns, `ErrNotFound` when the id is 0 or nothing was read. -/
def GetConversation (uid channelId : String) (channelType : Nat) (s : Store) :
    Except Err Conversation :=
  let id := getConversationIdByChannel uid channelId channelType s
  if id = 0 then Except.error Err.notFound
  else
    let c := if hasCols uid id s then assemble uid id s else EmptyConversation
    if c = EmptyConversation then Except.error Err.notFound else Except.ok c

/-- `writeConversationIndex`: channel index, type second index, and the
timestamp second indexes only when the corresponding pointer is set. -/
def writeConversationIndexOps (cn : Conversation) : Batch :=
  [BOp.set (CKey.channelIdx cn.Uid cn.ChannelId cn.ChannelType) (Val.u64 cn.Id),
   BOp.set (CKey.secondIdx cn.Uid idxType cn.tp cn.Id) Val.unit]
  ++ (match cn.CreatedAt with
      | some t => [BOp.set (CKey.secondIdx cn.Uid idxCreatedAt t cn.Id) Val.unit]
      | none => [])
  ++ (match cn.UpdatedAt with
      | some t => [BOp.set (CKey.secondIdx cn.Uid idxUpdatedAt t cn.Id) Val.unit]
      | none => [])

/-- `writeConversation`: one set per column (timestamp columns only when
set), then the index writes. -/
def writeConversation (cn : Conversation) (w : Batch) : Batch :=
  w ++ [BOp.set (CKey.column cn.Uid cn.Id colUid) (Val.bytes cn.Uid),
        BOp.set (CKey.column cn.Uid cn.Id colChannelId) (Val.bytes cn.ChannelId),
        BOp.set (CKey.column cn.Uid cn.Id colChannelType) (Val.byte cn.ChannelType),
        BOp.set (CKey.column cn.Uid cn.Id colType) (Val.byte cn.tp),
        BOp.set (CKey.column cn.Uid cn.Id colUnreadCount) (Val.u32 cn.UnreadCount),
        BOp.set (CKey.column cn.Uid cn.Id colReadedToMsgSeq) (Val.u64 cn.ReadToMsgSeq)]
  ++ (match cn.CreatedAt with
      | some t => [BOp.set (CKey.column cn.Uid cn.Id colCreatedAt) (Val.u64 t)]
      | none => [])
  ++ (match cn.UpdatedAt with
      | some t => [BOp.set (CKey.column cn.Uid cn.Id colUpdatedAt) (Val.u64 t)]
      | none => [])
  ++ writeConversationIndexOps cn

/-- `deleteConversationIndex`: deletes the channel index, the type
second index, and a timestamp second index only when the corresponding
pointer on the passed row is set. -/
def deleteConversationIndex (cn : Conversation) (w : Batch) : Batch :=
  w ++ [BOp.del (CKey.channelIdx cn.Uid cn.ChannelId cn.ChannelType),
        BOp.del (CKey.secondIdx cn.Uid idxType cn.tp cn.Id)]
  ++ (match cn.CreatedAt with
      | some t => [BOp.del (CKey.secondIdx cn.Uid idxCreatedAt t cn.Id)]
      | none => [])
  ++ (match cn.UpdatedAt with
      | some t => [BOp.del (CKey.secondIdx cn.Uid idxUpdatedAt t cn.Id)]
      | none => [])

/-- The negation-swap of the `sort.Slice` comparator in
`GetLastConversations` (`c1.UpdatedAt == nil → false; c2.UpdatedAt ==
nil → true; c1.UpdatedAt.After(c2.UpdatedAt)`): `updLe x y` holds when
the comparator does not order `y` strictly before `x`.  A Go
`sort.Slice` result is exactly a permutation of the input pairwise
ordered by this relation. -/
def updLe : Option Nat → Option Nat → Prop
  | _, none => True
  | none, some _ => False
  | some ta, some tb => tb ≤ ta

instance : ∀ x y : Option Nat, Decidable (updLe x y) := fun x y =>
  match x, y with
  | none, none => isTrue trivial
  | some _, none => isTrue trivial
  | none, some _ => isFalse (fun h => h)
  | some ta, some tb => Nat.decLe tb ta

/-- "updatedAt descending, nil last" row order. -/
def convLe (a b : Conversation) : Prop := updLe a.UpdatedAt b.UpdatedAt

instance : DecidableRel convLe := fun a b =>
  (inferInstance : Decidable (updLe a.UpdatedAt b.UpdatedAt))

instance : IsTotal Conversation convLe :=
  ⟨fun x y => by
    unfold convLe
    cases x.UpdatedAt <;> cases y.UpdatedAt <;> simp [updLe] <;> omega⟩

instance : IsTrans Conversation convLe :=
  ⟨fun x y z => by
    unfold convLe
    cases x.UpdatedAt <;> cases y.UpdatedAt <;> cases z.UpdatedAt <;>
      simp [updLe] <;> omega⟩

/-- Cache key of `GetLastConversations`: the full query key
`(uid, type, since, excludeChannelTypes, limit)`. -/
abbrev QKey := String × Nat × Nat × List Nat × Int

/-- Modelled from the spec: the conversation cache (`wk.conversationCache`,
not part of the given sources) keyed by the full query key; `none` is a
miss. -/
abbrev Cache := QKey → Option (List Conversation)

/-- Modelled from the spec: `InvalidateUserConversations` drops every
cached entry of `uid`. -/
def InvalidateUserConversations (uid : String) (c : Cache) : Cache :=
  fun k => if k.1 = uid then none else c k

/-- Modelled from the spec: `SetLastConversations` stores a result under
its query key. -/
def cacheStore (key : QKey) (v : List Conversation) (c : Cache) : Cache :=
  fun k => if k = key then some v else c k

/-- Modelled from the spec: the smart patch replaces any cached entry
whose logical key matches an upserted row. -/
def patchRow (rows : List Conversation) (c : Conversation) : Conversation :=
  match rows.find? (fun r => r.Uid = c.Uid ∧ r.ChannelId = c.ChannelId ∧
      r.ChannelType = c.ChannelType) with
  | some r => r
  | none => c

/-- Modelled from the spec: `UpdateConversationsInCache` patches, for
every affected uid, the cached lists in place and re-sorts them. -/
def UpdateConversationsInCache (rows : List Conversation) (c : Cache) : Cache :=
  fun k => if rows.any (fun r => r.Uid = k.1)
    then (c k).map (fun l => List.insertionSort convLe (l.map (patchRow rows)))
    else c k

/-- The state seen by the conversation operations: the (logically
single, key-sharded) store plus the query cache. -/
structure DBState where
  store : Store
  cache : Cache

/-- The per-row body of the `AddOrUpdateConversations` loop: read the
old row from the committed store; when it exists, clear its CreatedAt,
delete its indexes, reuse its id and clear CreatedAt on the new row;
then write the new row. -/
def upsertOps (cn : Conversation) (s : Store) : Batch :=
  match GetConversation cn.Uid cn.ChannelId cn.ChannelType s with
  | Except.error _ => writeConversation cn []
  | Except.ok old =>
    if old = EmptyConversation then writeConversation cn []
    else
      writeConversation { cn with Id := old.Id, CreatedAt := none }
        (deleteConversationIndex { old with CreatedAt := none } [])

/-- Appends row operations to the batch of shard `sid`, creating it on
first use (the `userBatchMap` grouping). -/
def addToShard (acc : List (Nat × Batch)) (sid : Nat) (ops : Batch) :
    List (Nat × Batch) :=
  match acc with
  | [] => [(sid, ops)]
  | (i, b) :: rest =>
    if i = sid then (i, b ++ ops) :: rest else (i, b) :: addToShard rest sid ops

def buildUserBatches (shard : String → Nat) (rows : List Conversation)
    (s : Store) : List (Nat × Batch) :=
  rows.foldl (fun acc cn => addToShard acc (shard cn.Uid) (upsertOps cn s)) []

/-- `setConversationLocalUserRelation`: one reverse-index set per row,
committed (on the channel shards) before the user batches. -/
def localUserOps (rows : List Conversation) : Batch :=
  rows.map (fun cn => BOp.set (CKey.localUser cn.ChannelId cn.ChannelType cn.Uid) Val.unit)

/-- `AddOrUpdateConversations`.  `shard` is the `hash(uid) % N` shard
selector (kept abstract), `commitOk` the outcome of the final
`Commits(batchs)`: on a commit error the code logs and returns nil with
the user batches unapplied, and skips the cache patch. -/
def AddOrUpdateConversations (shard : String → Nat) (rows : List Conversation)
    (commitOk : Bool) (st : DBState) : Option Err × DBState :=
  if rows.isEmpty then (none, st)
  else
    let batches := buildUserBatches shard rows st.store
    let s1 := applyBatch st.store (localUserOps rows)
    if commitOk then
      (none, { store := batches.foldl (fun s p => applyBatch s p.2) s1,
               cache := UpdateConversationsInCache rows st.cache })
    else (none, { st with store := s1 })

/-- `AddOrUpdateConversationsWithUser`: the single-uid variant; the old
row is read with the `uid` argument, one batch, synchronous commit. -/
def AddOrUpdateConversationsWithUser (uid : String) (rows : List Conversation)
    (st : DBState) : Option Err × DBState :=
  let batch := rows.foldl (fun b cn =>
    match GetConversation uid cn.ChannelId cn.ChannelType st.store with
    | Except.error _ => writeConversation cn b
    | Except.ok old =>
      if old = EmptyConversation then writeConversation cn b
      else
        writeConversation { cn with Id := old.Id, CreatedAt := none }
          (deleteConversationIndex { old with CreatedAt := none } b)) []
  let s1 := applyBatch st.store (localUserOps rows)
  (none, { store := applyBatch s1 batch,
           cache := UpdateConversationsInCache rows st.cache })

/-- `UpdateConversationIfSeqGreaterAsync`: any `GetConversation` error —
including `ErrNotFound` — is returned as-is; an existing row is updated
only when its `ReadToMsgSeq` is strictly smaller. -/
def UpdateConversationIfSeqGreaterAsync (uid channelId : String)
    (channelType : Nat) (readToMsgSeq : Nat) (st : DBState) :
    Option Err × DBState :=
  match GetConversation uid channelId channelType st.store with
  | Except.error e => (some e, st)
  | Except.ok c =>
    if c = EmptyConversation then (none, st)
    else if readToMsgSeq ≤ c.ReadToMsgSeq then (none, st)
    else
      (none, { store := setK st.store
                 (CKey.column uid c.Id colReadedToMsgSeq) (Val.u64 readToMsgSeq),
               cache := InvalidateUserConversations uid st.cache })

/-- `GetConversations`: a full scan of `P/<uid>/*`; the only possible
errors are iterator I/O errors, which the store model does not produce. -/
def GetConversations (uid : String) (s : Store) : Except Err (List Conversation) :=
  Except.ok (rowsOf uid s)

/-- The private `getConversations`: all rows of `uid` whose stored
channel matches (duplicates included). -/
def getConversationsFor (uid channelId : String) (channelType : Nat)
    (s : Store) : List Conversation :=
  (rowsOf uid s).filter (fun c => c.ChannelId = channelId ∧ c.ChannelType = channelType)

/-- The private `deleteConversation`: for every matching row, delete its
indexes then range-delete its columns. -/
def deleteConversationOps (uid channelId : String) (channelType : Nat)
    (s : Store) : Batch :=
  (getConversationsFor uid channelId channelType s).foldl
    (fun b r => deleteConversationIndex r b ++ [BOp.delRange uid r.Id]) []

/-- `DeleteConversation`: build the delete batch from the committed
store, commit the channel-side reverse-index delete first, then the
batch, then invalidate the uid's cache entries. -/
def DeleteConversation (uid channelId : String) (channelType : Nat)
    (st : DBState) : Option Err × DBState :=
  let b := deleteConversationOps uid channelId channelType st.store
  let s1 := applyBatch st.store [BOp.del (CKey.localUser channelId channelType uid)]
  (none, { store := applyBatch s1 b,
           cache := InvalidateUserConversations uid st.cache })

/-- The `GetLastConversations` row filter: type equality, channel-type
exclusion, and the updatedAt-since filter (`since = 0` admits all). -/
def matchesQuery (tp since : Nat) (excl : List Nat) (c : Conversation) : Bool :=
  c.tp == tp && !(excl.contains c.ChannelType) &&
    (since == 0 || (match c.UpdatedAt with
      | some t => decide (since ≤ t)
      | none => false))

/-- `GetLastConversations`: read-through cache; on a miss, full scan,
filter, sort by updatedAt descending (nil last), truncate when
`limit > 0 && len > limit`, store in the cache.  `insertionSort` stands
in for `sort.Slice`: both return a permutation of the input pairwise
ordered by the comparator. -/
def GetLastConversations (uid : String) (tp since : Nat) (excl : List Nat)
    (limit : Int) (st : DBState) :
    Except Err (List Conversation) × DBState :=
  match st.cache (uid, tp, since, excl, limit) with
  | some cached => (Except.ok cached, st)
  | none =>
    let all := (rowsOf uid st.store).filter (matchesQuery tp since excl)
    let sorted := List.insertionSort convLe all
    let res := if 0 < limit ∧ limit < (sorted.length : Int)
      then sorted.take limit.toNat else sorted
    (Except.ok res,
     { st with cache := cacheStore (uid, tp, since, excl, limit) res st.cache })

end wkdb

namespace wknet

/-!
The reactor connection (`DefaultConn` / `TLSConn` in `pkg/wknet`).
Buffers are byte lists; `fdOut` is the byte stream written to the fd;
`isW` is the poller's writable-interest flag (`AddWrite`/`RemoveWrite`);
`maxWrite` is the engine option `MaxWriteBufferSize` (0 = unbounded).
The fd write is modelled as accepting all offered bytes.  Errors reuse
`wkdb.Err`: `closed` is `net.ErrClosed`, `einval` is `syscall.EINVAL`.
-/

structure ConnSt where
  closed : Bool
  inbound : List Nat
  outbound : List Nat
  fdOut : List Nat
  isW : Bool
  maxWrite : Nat
  deriving DecidableEq, Repr

namespace DefaultConn

/-- `DefaultConn.Close` → `closeNeedLock(nil)`: idempotent; sets the
closed flag and `release()` empties both ring buffers. -/
def Close (c : ConnSt) : ConnSt :=
  if c.closed then c
  else { c with closed := true, inbound := [], outbound := [] }

/-- `DefaultConn.Read`: empty inbound buffer returns `(0, nil)`;
otherwise consume up to `len(buf)` bytes.  There is no closed check. -/
def Read (c : ConnSt) (bufLen : Nat) : (Int × Option wkdb.Err) × ConnSt :=
  if c.inbound.isEmpty then ((0, none), c)
  else
    let k := min bufLen c.inbound.length
    (((k : Int), none), { c with inbound := c.inbound.drop k })

/-- The private `DefaultConn.write`: closed check, empty-slice
short-circuit, outbound overflow check, append and arm writable
interest. -/
def write (c : ConnSt) (b : List Nat) : (Int × Option wkdb.Err) × ConnSt :=
  if c.closed then ((-1, some wkdb.Err.closed), c)
  else if b.length = 0 then ((0, none), c)
  else if 0 < c.maxWrite ∧ c.maxWrite < c.outbound.length + b.length then
    ((0, some wkdb.Err.einval), c)
  else (((b.length : Int), none), { c with outbound := c.outbound ++ b, isW := true })

/-- `DefaultConn.Write`: fast closed rejection, then `write`; on error
the byte count is reported as 0. -/
def Write (c : ConnSt) (b : List Nat) : (Int × Option wkdb.Err) × ConnSt :=
  if c.closed then ((-1, some wkdb.Err.closed), c)
  else
    match write c b with
    | ((_, some e), c') => ((0, some e), c')
    | ((n, none), c') => ((n, none), c')

/-- The private `DefaultConn.flush`: closed check; an empty outbound
ring only clears writable interest; otherwise peek both segments, write
them to the fd, discard the written count, and clear writable interest
once drained. -/
def flush (c : ConnSt) : Option wkdb.Err × ConnSt :=
  if c.closed then (some wkdb.Err.closed, c)
  else if c.outbound.isEmpty then (none, { c with isW := false })
  else (none, { c with fdOut := c.fdOut ++ c.outbound, outbound := [], isW := false })

/-- `DefaultConn.Flush`: fast closed rejection, then `flush`. -/
def Flush (c : ConnSt) : Option wkdb.Err × ConnSt :=
  if c.closed then (some wkdb.Err.closed, c) else flush c

/-- `DefaultConn.WriteToOutboundBuffer`: empty-slice short-circuit,
closed rejection, then a plain append (no writable-interest arming,
no overflow check). -/
def WriteToOutboundBuffer (c : ConnSt) (b : List Nat) :
    (Int × Option wkdb.Err) × ConnSt :=
  if b.length = 0 then ((0, none), c)
  else if c.closed then ((-1, some wkdb.Err.closed), c)
  else (((b.length : Int), none), { c with outbound := c.outbound ++ b })

end DefaultConn

namespace TLSConn

/-- `TLSConn.WriteToOutboundBuffer`: delegates straight to
`t.d.outboundBuffer.Write(b)` with no closed check at all. -/
def WriteToOutboundBuffer (c : ConnSt) (b : List Nat) :
    (Int × Option wkdb.Err) × ConnSt :=
  (((b.length : Int), none), { c with outbound := c.outbound ++ b })

end TLSConn

end wknet

namespace wkdb

/-- Channel-index consistency: a live channel-index entry of `uid` that
resolves to a nonzero id with live columns points at a row whose stored
channel columns equal the index key.  Maintained by the write path;
`GetConversation` trusts it. -/
def chanEntryOK (uid : String) (s : Store) : CKey × Val → Bool
  | (CKey.channelIdx u ch ct, v) =>
    !(u == uid) || (valU64 (some v) == 0) || !(hasCols uid (valU64 (some v)) s) ||
      ((assemble uid (valU64 (some v)) s).ChannelId == ch &&
       (assemble uid (valU64 (some v)) s).ChannelType == ct)
  | _ => true

/-- Secondary-index consistency: a live secondary-index entry of `uid`
records the indexed column value of its row. -/
def secEntryOK (uid : String) (s : Store) : CKey × Val → Bool
  | (CKey.secondIdx u kind value id, _) =>
    !(u == uid) ||
      ((kind == idxType && value == (assemble uid id s).tp) ||
       (kind == idxCreatedAt && ((assemble uid id s).CreatedAt == some value)) ||
       (kind == idxUpdatedAt && ((assemble uid id s).UpdatedAt == some value)))
  | _ => true

/-- Row-ownership consistency: a row stored under `P/<uid>/*` carries
`uid` in its uid column. -/
def rowUidOK (uid : String) (s : Store) : Bool :=
  (collectIds uid s).all (fun id => (assemble uid id s).Uid == uid)

/-- The store invariants maintained by the conversation write path. -/
def wellFormed (uid : String) (s : Store) : Bool :=
  s.all (chanEntryOK uid s) && s.all (secEntryOK uid s) && rowUidOK uid s

end wkdb


/-!
Concrete fixtures used by witnesses and counterexamples.
-/

/-- A stored conversation row for user alice in channel room1. -/
def sampleRow : wkdb.Conversation :=
  { Id := 7, Uid := "alice", ChannelId := "room1", ChannelType := 1, tp := 1,
    UnreadCount := 3, ReadToMsgSeq := 40, DeletedAtMsgSeq := 0,
    CreatedAt := some 100, UpdatedAt := some 100 }

/-- A second stored row for alice in channel room2, fresher updatedAt. -/
def sampleRow2 : wkdb.Conversation :=
  { Id := 8, Uid := "alice", ChannelId := "room2", ChannelType := 1, tp := 1,
    UnreadCount := 1, ReadToMsgSeq := 0, DeletedAtMsgSeq := 0,
    CreatedAt := some 150, UpdatedAt := some 200 }

/-- An upsert payload for the (alice, room1, 1) key, as a caller builds
it: fresh id and timestamps. -/
def sampleNew : wkdb.Conversation :=
  { Id := 99, Uid := "alice", ChannelId := "room1", ChannelType := 1, tp := 1,
    UnreadCount := 5, ReadToMsgSeq := 45, DeletedAtMsgSeq := 0,
    CreatedAt := some 999, UpdatedAt := some 200 }

def sampleStore : wkdb.Store :=
  wkdb.applyBatch [] (wkdb.writeConversation sampleRow [])

def sampleStore2 : wkdb.Store :=
  wkdb.applyBatch [] (wkdb.writeConversation sampleRow2 (wkdb.writeConversation sampleRow []))

def sampleState : wkdb.DBState := { store := sampleStore, cache := fun _ => none }

def sampleState2 : wkdb.DBState := { store := sampleStore2, cache := fun _ => none }

def emptyState : wkdb.DBState := { store := [], cache := fun _ => none }

/-- An open connection with buffered bytes on both sides. -/
def sampleConn : wknet.ConnSt :=
  { closed := false, inbound := [1, 2, 3], outbound := [4, 5], fdOut := [],
    isW := true, maxWrite := 0 }


/-!
Theorems.  Helper lemmas about the store model come first; each
claim's theorem is stated over the operation models above.
-/

namespace wkdb

theorem lookup_delK (s : Store) (k : CKey) (k' : CKey) :
    lookup (delK s k) k' = if k' = k then none else lookup s k' := by
  unfold lookup delK
  by_cases h : k' = k
  · simp only [if_pos h]
    subst h
    induction s with
    | nil => simp
    | cons hd tl ih =>
      by_cases hk : hd.1 = k'
      · rw [List.filter_cons_of_neg (by simp [hk])]
        exact ih
      · rw [List.filter_cons_of_pos (by simp [hk]),
          List.find?_cons_of_neg _ (by simp [hk])]
        exact ih
  · simp only [if_neg h]
    induction s with
    | nil => rfl
    | cons hd tl ih =>
      by_cases hk : hd.1 = k
      · rw [List.filter_cons_of_neg (by simp [hk]),
          List.find?_cons_of_neg _ (by
            simp only [decide_eq_true_eq]
            exact fun hc => h (hc.symm.trans hk))]
        exact ih
      · rw [List.filter_cons_of_pos (by simp [hk])]
        by_cases hp : hd.1 = k'
        · rw [List.find?_cons_of_pos _ (by simp [hp]),
            List.find?_cons_of_pos _ (by simp [hp])]
        · rw [List.find?_cons_of_neg _ (by simp [hp]),
            List.find?_cons_of_neg _ (by simp [hp])]
          exact ih

theorem lookup_setK (s : Store) (k : CKey) (v : Val) (k' : CKey) :
    lookup (setK s k v) k' = if k' = k then some v else lookup s k' := by
  unfold lookup setK
  by_cases h : k' = k
  · subst h
    rw [List.find?_cons_of_pos _ (by simp)]
    simp
  · rw [List.find?_cons_of_neg _ (by
      simp only [decide_eq_true_eq]
      exact fun hc => h hc.symm)]
    simp only [if_neg h]
    have hdel := lookup_delK s k k'
    unfold lookup delK at hdel
    rw [if_neg h] at hdel
    exact hdel

theorem lookup_delRangeK (s : Store) (uid : String) (id : Nat) (k' : CKey) :
    lookup (delRangeK s uid id) k' =
      if inColRange uid id k' then none else lookup s k' := by
  unfold lookup delRangeK
  by_cases h : inColRange uid id k' = true
  · simp only [h, if_pos]
    induction s with
    | nil => simp
    | cons hd tl ih =>
      by_cases hin : inColRange uid id hd.1 = true
      · rw [List.filter_cons_of_neg (by simp [hin])]
        exact ih
      · rw [List.filter_cons_of_pos (by simp [hin]),
          List.find?_cons_of_neg _ (by
            simp only [decide_eq_true_eq]
            intro hc
            rw [hc, h] at hin
            exact hin rfl)]
        exact ih
  · simp only [h, if_neg, Bool.false_eq_true, not_false_iff]
    induction s with
    | nil => rfl
    | cons hd tl ih =>
      by_cases hin : inColRange uid id hd.1 = true
      · rw [List.filter_cons_of_neg (by simp [hin]),
          List.find?_cons_of_neg _ (by
            simp only [decide_eq_true_eq]
            intro hc
            rw [hc] at hin
            exact h hin)]
        exact ih
      · rw [List.filter_cons_of_pos (by simp [hin])]
        by_cases hp : hd.1 = k'
        · rw [List.find?_cons_of_pos _ (by simp [hp]),
            List.find?_cons_of_pos _ (by simp [hp])]
        · rw [List.find?_cons_of_neg _ (by simp [hp]),
            List.find?_cons_of_neg _ (by simp [hp])]
          exact ih

theorem lookup_applyOp (s : Store) (op : BOp) (k : CKey) :
    lookup (applyOp s op) k = (opEffect op k).getD (lookup s k) := by
  cases op with
  | set k' v =>
    simp only [applyOp, opEffect, lookup_setK]
    by_cases h : k = k' <;> simp [h]
  | del k' =>
    simp only [applyOp, opEffect, lookup_delK]
    by_cases h : k = k' <;> simp [h]
  | delRange uid id =>
    simp only [applyOp, opEffect, lookup_delRangeK]
    by_cases h : inColRange uid id k = true <;> simp [h]

theorem effFold_getD (k : CKey) (rest : Batch) :
    ∀ (a d : Option Val),
      (rest.foldl (effStep k) (some a)).getD d =
        (rest.foldl (effStep k) none).getD a := by
  induction rest with
  | nil => intro a d; rfl
  | cons op rest ih =>
    intro a d
    rw [List.foldl_cons, List.foldl_cons]
    cases heff : opEffect op k with
    | none =>
      have h1 : effStep k (some a) op = some a := by simp [effStep, heff]
      have h2 : effStep k none op = none := by simp [effStep, heff]
      rw [h1, h2, ih]
    | some e =>
      have h1 : effStep k (some a) op = some e := by simp [effStep, heff]
      have h2 : effStep k none op = some e := by simp [effStep, heff]
      rw [h1, h2, ih, ih]

/-- Last-write-wins characterisation of committing a batch. -/
theorem lookup_applyBatch (b : Batch) (s : Store) (k : CKey) :
    lookup (applyBatch s b) k = (lastEffect b k).getD (lookup s k) := by
  induction b generalizing s with
  | nil => rfl
  | cons op rest ih =>
    show lookup (applyBatch (applyOp s op) rest) k = _
    rw [ih]
    unfold lastEffect
    rw [List.foldl_cons, lookup_applyOp]
    cases heff : opEffect op k with
    | none =>
      have h2 : effStep k none op = none := by simp [effStep, heff]
      rw [h2]
      simp only [heff, Option.getD_none]
    | some e =>
      have h2 : effStep k none op = some e := by simp [effStep, heff]
      rw [h2]
      simp only [heff, Option.getD_some]
      rw [effFold_getD]

theorem updLe_total (x y : Option Nat) : updLe x y ∨ updLe y x := by
  cases x <;> cases y <;> simp [updLe] <;> omega

theorem updLe_trans (x y z : Option Nat) :
    updLe x y → updLe y z → updLe x z := by
  cases x <;> cases y <;> cases z <;> simp [updLe] <;> omega

end wkdb

/-- Claim C1 (amended): once `Close` has returned, `Write` and `Flush`
return the closed error and perform no I/O; `Read` also performs no I/O
(no bytes are consumed — the inbound buffer was emptied by `release`)
but returns `(0, nil)` rather than a closed error, since
`DefaultConn.Read` has no closed check.  The state (buffers, fd output,
writable interest) is unchanged by all three calls, so the same holds
for every subsequent call. -/
theorem close_terminal_io (c0 : wknet.ConnSt) (h : c0.closed = false)
    (n : Nat) (b : List Nat) :
    wknet.DefaultConn.Read (wknet.DefaultConn.Close c0) n =
      ((0, none), wknet.DefaultConn.Close c0) ∧
    wknet.DefaultConn.Write (wknet.DefaultConn.Close c0) b =
      ((-1, some wkdb.Err.closed), wknet.DefaultConn.Close c0) ∧
    wknet.DefaultConn.Flush (wknet.DefaultConn.Close c0) =
      (some wkdb.Err.closed, wknet.DefaultConn.Close c0) := by
  have hc : wknet.DefaultConn.Close c0 =
      { c0 with closed := true, inbound := [], outbound := [] } := by
    simp [wknet.DefaultConn.Close, h]
  rw [hc]
  refine ⟨?_, ?_, ?_⟩ <;>
    simp [wknet.DefaultConn.Read, wknet.DefaultConn.Write, wknet.DefaultConn.Flush]

/-- Witness for C1 at a concrete open connection. -/
theorem close_terminal_io_witness :
    wknet.DefaultConn.Read (wknet.DefaultConn.Close sampleConn) 16 =
      ((0, none), wknet.DefaultConn.Close sampleConn) ∧
    wknet.DefaultConn.Write (wknet.DefaultConn.Close sampleConn) [9] =
      ((-1, some wkdb.Err.closed), wknet.DefaultConn.Close sampleConn) ∧
    wknet.DefaultConn.Flush (wknet.DefaultConn.Close sampleConn) =
      (some wkdb.Err.closed, wknet.DefaultConn.Close sampleConn) :=
  close_terminal_io sampleConn rfl 16 [9]

/-- Claim C1 (counterexample): on a just-closed connection `Read`
returns `(0, nil)` — no closed error is produced, contradicting the
claim that every subsequent `Read` returns a closed error. -/
theorem read_after_close_no_closed_error_cex :
    (wknet.DefaultConn.Read (wknet.DefaultConn.Close sampleConn) 16).1 =
      (0, none) := rfl

/-- Claim C8 (amended): on a closed connection and a nonempty slice,
`DefaultConn.WriteToOutboundBuffer` fails with the closed error and
appends nothing, but `TLSConn.WriteToOutboundBuffer` performs no closed
check and appends unconditionally. -/
theorem write_outbound_closed_spec (c : wknet.ConnSt) (b : List Nat)
    (hc : c.closed = true) (hb : b ≠ []) :
    wknet.DefaultConn.WriteToOutboundBuffer c b =
      ((-1, some wkdb.Err.closed), c) ∧
    wknet.TLSConn.WriteToOutboundBuffer c b =
      (((b.length : Int), none), { c with outbound := c.outbound ++ b }) := by
  constructor
  · simp [wknet.DefaultConn.WriteToOutboundBuffer, hc, hb]
  · rfl

/-- Witness for C8 at a concrete closed connection. -/
theorem write_outbound_closed_spec_witness :
    wknet.DefaultConn.WriteToOutboundBuffer (wknet.DefaultConn.Close sampleConn) [1, 2] =
      ((-1, some wkdb.Err.closed), wknet.DefaultConn.Close sampleConn) ∧
    wknet.TLSConn.WriteToOutboundBuffer (wknet.DefaultConn.Close sampleConn) [1, 2] =
      ((2, none), { wknet.DefaultConn.Close sampleConn with
        outbound := (wknet.DefaultConn.Close sampleConn).outbound ++ [1, 2] }) :=
  write_outbound_closed_spec (wknet.DefaultConn.Close sampleConn) [1, 2] rfl (by decide)

/-- Claim C8 (counterexample): `TLSConn.WriteToOutboundBuffer` on a
closed connection appends the bytes and reports success instead of
failing with a closed error. -/
theorem tls_write_outbound_closed_cex :
    wknet.TLSConn.WriteToOutboundBuffer
      { closed := true, inbound := [], outbound := [], fdOut := [],
        isW := false, maxWrite := 0 } [1, 2, 3] =
    ((3, none),
     { closed := true, inbound := [], outbound := [1, 2, 3], fdOut := [],
       isW := false, maxWrite := 0 }) := rfl

/-- Claim C9: on an open connection, `Write` of an empty slice returns
`(0, nil)`, leaves the outbound buffer untouched and does not arm
writable interest (the whole state is unchanged). -/
theorem write_empty_noop (c : wknet.ConnSt) (h : c.closed = false) :
    wknet.DefaultConn.Write c [] = ((0, none), c) := by
  simp [wknet.DefaultConn.Write, wknet.DefaultConn.write, h]

/-- Witness for C9 at a concrete open connection. -/
theorem write_empty_noop_witness :
    wknet.DefaultConn.Write sampleConn [] = ((0, none), sampleConn) :=
  write_empty_noop sampleConn rfl

/-- Claim C10: for a uid with no stored conversation rows,
`GetConversations` returns an empty list and no error — by construction
it never produces the `NotFound` sentinel. -/
theorem getconversations_no_rows (uid : String) (s : wkdb.Store)
    (h : wkdb.collectIds uid s = []) :
    wkdb.GetConversations uid s = Except.ok [] := by
  unfold wkdb.GetConversations wkdb.rowsOf wkdb.sortedIds
  rw [h]
  rfl

/-- Witness for C10: a user with no rows in a populated store. -/
theorem getconversations_no_rows_witness :
    wkdb.GetConversations "bob" sampleStore = Except.ok [] :=
  getconversations_no_rows "bob" sampleStore (by decide)

/-- Claim C3: with a non-empty row list, when the final multi-shard
`Commits` fails, `AddOrUpdateConversations` logs the error and returns
nil — commit errors are never propagated to the caller. -/
theorem addorupdate_swallows_commit_error (shard : String → Nat)
    (rows : List wkdb.Conversation) (st : wkdb.DBState) (hrows : rows ≠ []) :
    (wkdb.AddOrUpdateConversations shard rows false st).1 = none := by
  cases rows with
  | nil => exact absurd rfl hrows
  | cons a l => rfl

/-- Witness for C3 at a concrete upsert with a failing commit. -/
theorem addorupdate_swallows_commit_error_witness :
    (wkdb.AddOrUpdateConversations (fun _ => 0) [sampleNew] false emptyState).1 = none :=
  addorupdate_swallows_commit_error (fun _ => 0) [sampleNew] emptyState (by decide)

namespace wkdb

/-- Inversion of a successful `GetConversation`: the channel index
resolved a nonzero id whose columns exist, and the returned row is the
assembled (hence non-empty) row of that id. -/
theorem getConversation_ok (uid ch : String) (ct : Nat) (s : Store)
    (c : Conversation) (h : GetConversation uid ch ct s = Except.ok c) :
    getConversationIdByChannel uid ch ct s = c.Id ∧ c.Id ≠ 0 ∧
    hasCols uid c.Id s = true ∧ c = assemble uid c.Id s ∧
    c ≠ EmptyConversation := by
  unfold GetConversation at h
  by_cases h0 : getConversationIdByChannel uid ch ct s = 0
  · rw [if_pos h0] at h
    exact absurd h (by simp)
  · rw [if_neg h0] at h
    by_cases hcols : hasCols uid (getConversationIdByChannel uid ch ct s) s = true
    · rw [if_pos hcols] at h
      by_cases hemp :
          assemble uid (getConversationIdByChannel uid ch ct s) s = EmptyConversation
      · rw [if_pos hemp] at h
        exact absurd h (by simp)
      · rw [if_neg hemp] at h
        have hc : assemble uid (getConversationIdByChannel uid ch ct s) s = c := by
          simpa using h
        have hid : c.Id = getConversationIdByChannel uid ch ct s := by
          rw [← hc]
          rfl
        refine ⟨hid.symm, ?_, ?_, ?_, ?_⟩
        · rw [hid]; exact h0
        · rw [hid]; exact hcols
        · rw [hid]; exact hc.symm
        · rw [← hc]; exact hemp
    · rw [if_neg hcols, if_pos rfl] at h
      exact absurd h (by simp)

end wkdb

namespace wkdb

/-- Claim C4 (amended): `UpdateConversationIfSeqGreaterAsync` is a
no-op when the row is missing or already read past `readTo`, and
otherwise sets the `ReadedToMsgSeq` column and invalidates the user's
cache — but for a missing row it propagates `ErrNotFound` instead of
returning nil (the `GetConversation` error is returned without the
`ErrNotFound` exemption used elsewhere).  The stored `ReadToMsgSeq` is
monotone non-decreasing under the operation. -/
theorem update_seq_greater_spec (uid ch : String) (ct rt : Nat) (st : DBState) :
    (∀ e, GetConversation uid ch ct st.store = Except.error e →
      UpdateConversationIfSeqGreaterAsync uid ch ct rt st = (some e, st)) ∧
    (∀ old, GetConversation uid ch ct st.store = Except.ok old →
      rt ≤ old.ReadToMsgSeq →
      UpdateConversationIfSeqGreaterAsync uid ch ct rt st = (none, st)) ∧
    (∀ old, GetConversation uid ch ct st.store = Except.ok old →
      old.ReadToMsgSeq < rt →
      UpdateConversationIfSeqGreaterAsync uid ch ct rt st =
        (none, { store := setK st.store
                   (CKey.column uid old.Id colReadedToMsgSeq) (Val.u64 rt),
                 cache := InvalidateUserConversations uid st.cache })) ∧
    (∀ old, GetConversation uid ch ct st.store = Except.ok old →
      old.ReadToMsgSeq ≤ valU64 (lookup
        (UpdateConversationIfSeqGreaterAsync uid ch ct rt st).2.store
        (CKey.column uid old.Id colReadedToMsgSeq))) := by
  refine ⟨?_, ?_, ?_, ?_⟩
  · intro e he
    simp only [UpdateConversationIfSeqGreaterAsync, he]
  · intro old hok hle
    obtain ⟨_, _, _, _, hne⟩ := getConversation_ok _ _ _ _ _ hok
    simp only [UpdateConversationIfSeqGreaterAsync, hok]
    rw [if_neg hne, if_pos hle]
  · intro old hok hlt
    obtain ⟨_, _, _, _, hne⟩ := getConversation_ok _ _ _ _ _ hok
    have hnle : ¬ rt ≤ old.ReadToMsgSeq := by omega
    simp only [UpdateConversationIfSeqGreaterAsync, hok]
    rw [if_neg hne, if_neg hnle]
  · intro old hok
    obtain ⟨_, _, _, hasm, hne⟩ := getConversation_ok _ _ _ _ _ hok
    have hstored : old.ReadToMsgSeq =
        valU64 (lookup st.store (CKey.column uid old.Id colReadedToMsgSeq)) := by
      conv_lhs => rw [hasm]
      rfl
    by_cases hle : rt ≤ old.ReadToMsgSeq
    · have hupd : UpdateConversationIfSeqGreaterAsync uid ch ct rt st = (none, st) := by
        simp only [UpdateConversationIfSeqGreaterAsync, hok]
        rw [if_neg hne, if_pos hle]
      rw [hupd, ← hstored]
    · have hupd : UpdateConversationIfSeqGreaterAsync uid ch ct rt st =
          (none, { store := setK st.store
                     (CKey.column uid old.Id colReadedToMsgSeq) (Val.u64 rt),
                   cache := InvalidateUserConversations uid st.cache }) := by
        simp only [UpdateConversationIfSeqGreaterAsync, hok]
        rw [if_neg hne, if_neg hle]
      rw [hupd]
      show old.ReadToMsgSeq ≤ valU64 (lookup
        (setK st.store (CKey.column uid old.Id colReadedToMsgSeq) (Val.u64 rt))
        (CKey.column uid old.Id colReadedToMsgSeq))
      rw [lookup_setK, if_pos rfl]
      show old.ReadToMsgSeq ≤ rt
      omega

/-- Witness for C4: an existing row with ReadTo=40 is advanced to 50
and the user's cache entries are invalidated. -/
theorem update_seq_greater_spec_witness :
    UpdateConversationIfSeqGreaterAsync "alice" "room1" 1 50 sampleState =
      (none, { store := setK sampleState.store
                 (CKey.column "alice" 7 colReadedToMsgSeq) (Val.u64 50),
               cache := InvalidateUserConversations "alice" sampleState.cache }) :=
  (update_seq_greater_spec "alice" "room1" 1 50 sampleState).2.2.1
    (assemble "alice" 7 sampleStore) rfl (by decide)

/-- Claim C4 (counterexample): with no row for the key, the call
returns `ErrNotFound` — not the claimed error-free no-op. -/
theorem update_seq_missing_error_cex :
    UpdateConversationIfSeqGreaterAsync "alice" "room1" 1 50 emptyState =
      (some Err.notFound, emptyState) := rfl

end wkdb

namespace wkdb

/-- Claim C6 (amended): on a cache miss, when `limit ≤ 0` (the Go
`limit > 0` guard is false, so `limit = 0` disables truncation rather
than returning an empty result) or when `limit` is at least the number
of matching rows, `GetLastConversations` returns all matching rows. -/
theorem getlast_limit_boundary (uid : String) (tp since : Nat)
    (excl : List Nat) (limit : Int) (st : DBState)
    (hmiss : st.cache (uid, tp, since, excl, limit) = none)
    (hlim : limit ≤ 0 ∨
      ((((rowsOf uid st.store).filter (matchesQuery tp since excl)).length : Int) ≤ limit)) :
    ∃ l, (GetLastConversations uid tp since excl limit st).1 = Except.ok l ∧
      l.Perm ((rowsOf uid st.store).filter (matchesQuery tp since excl)) := by
  refine ⟨List.insertionSort convLe
    ((rowsOf uid st.store).filter (matchesQuery tp since excl)), ?_,
    List.perm_insertionSort _ _⟩
  have hcond : ¬(0 < limit ∧ limit <
      ((List.insertionSort convLe
        ((rowsOf uid st.store).filter (matchesQuery tp since excl))).length : Int)) := by
    rw [(List.perm_insertionSort convLe _).length_eq]
    rcases hlim with h | h
    · rintro ⟨h1, _⟩
      omega
    · rintro ⟨_, h2⟩
      omega
  simp only [GetLastConversations, hmiss]
  rw [if_neg hcond]

/-- Witness for C6: `limit = 0` returns every matching row. -/
theorem getlast_limit_boundary_witness :
    ∃ l, (GetLastConversations "alice" 1 0 [] 0 sampleState2).1 = Except.ok l ∧
      l.Perm ((rowsOf "alice" sampleState2.store).filter (matchesQuery 1 0 [])) :=
  getlast_limit_boundary "alice" 1 0 [] 0 sampleState2 rfl (Or.inl (by decide))

/-- Claim C6 (counterexample): with one stored matching row and
`limit = 0`, the result is that row — not the empty list the claim
asserts. -/
theorem getlast_limit_zero_not_empty_cex :
    (GetLastConversations "alice" 1 0 [] 0 sampleState).1 =
      Except.ok [assemble "alice" 7 sampleStore] ∧
    ([assemble "alice" 7 sampleStore] : List Conversation) ≠ [] :=
  ⟨rfl, by simp⟩

end wkdb

namespace wkdb

/-- In a list sorted by `convLe`, a row with a strictly larger
timestamp sits strictly earlier. -/
theorem sorted_get_lt (l0 : List Conversation) (hs0 : l0.Sorted convLe)
    (i j : Fin l0.length) (t1 t2 : Nat)
    (h1 : (l0.get i).UpdatedAt = some t1) (h2 : (l0.get j).UpdatedAt = some t2)
    (hlt : t1 < t2) : (j : Nat) < (i : Nat) := by
  rcases Nat.lt_trichotomy (i : Nat) (j : Nat) with h | h | h
  · have hrel := hs0.rel_get_of_lt (show i < j from h)
    unfold convLe at hrel
    rw [h1, h2] at hrel
    exact absurd hrel (by simp [updLe]; omega)
  · have hij : i = j := Fin.ext h
    subst hij
    rw [h1] at h2
    simp at h2
    omega
  · exact h

/-- In a list sorted by `convLe`, NULL timestamps occupy a suffix. -/
theorem sorted_get_none (l0 : List Conversation) (hs0 : l0.Sorted convLe)
    (i j : Fin l0.length) (hij : (i : Nat) ≤ (j : Nat))
    (h1 : (l0.get i).UpdatedAt = none) : (l0.get j).UpdatedAt = none := by
  rcases Nat.eq_or_lt_of_le hij with h | h
  · have hij2 : i = j := Fin.ext h
    subst hij2
    exact h1
  · have hrel := hs0.rel_get_of_lt (show i < j from h)
    unfold convLe at hrel
    rw [h1] at hrel
    cases hj : (l0.get j).UpdatedAt with
    | none => rfl
    | some t =>
      rw [hj] at hrel
      exact absurd hrel (by simp [updLe])

/-- Claim C5 (amended): on a cache miss, `GetLastConversations` returns
the user's rows matching the type / channel-type-exclusion / since
filters, sorted by `UpdatedAt` descending with NULL timestamps last,
truncated to the first `limit` entries when `0 < limit < matches`
(and complete otherwise); in any result, a row with a larger timestamp
precedes one with a smaller timestamp. -/
theorem getlast_cache_miss_spec (uid : String) (tp since : Nat)
    (excl : List Nat) (limit : Int) (st : DBState)
    (hmiss : st.cache (uid, tp, since, excl, limit) = none) :
    ∃ l, (GetLastConversations uid tp since excl limit st).1 = Except.ok l ∧
      (∀ c, c ∈ l → c ∈ rowsOf uid st.store ∧ matchesQuery tp since excl c = true) ∧
      (¬(0 < limit ∧ limit <
          (((rowsOf uid st.store).filter (matchesQuery tp since excl)).length : Int)) →
        l.Perm ((rowsOf uid st.store).filter (matchesQuery tp since excl))) ∧
      l.Sorted convLe ∧
      (∀ (i j : Fin l.length) (t1 t2 : Nat),
        (l.get i).UpdatedAt = some t1 → (l.get j).UpdatedAt = some t2 →
        t1 < t2 → (j : Nat) < (i : Nat)) ∧
      (∀ (i j : Fin l.length), (i : Nat) ≤ (j : Nat) →
        (l.get i).UpdatedAt = none → (l.get j).UpdatedAt = none) := by
  have hlen : (List.insertionSort convLe
      ((rowsOf uid st.store).filter (matchesQuery tp since excl))).length =
      ((rowsOf uid st.store).filter (matchesQuery tp since excl)).length :=
    (List.perm_insertionSort convLe _).length_eq
  have hsort0 : (List.insertionSort convLe
      ((rowsOf uid st.store).filter (matchesQuery tp since excl))).Sorted convLe :=
    List.sorted_insertionSort convLe _
  by_cases hcond : 0 < limit ∧ limit <
      ((List.insertionSort convLe
        ((rowsOf uid st.store).filter (matchesQuery tp since excl))).length : Int)
  · refine ⟨(List.insertionSort convLe
      ((rowsOf uid st.store).filter (matchesQuery tp since excl))).take limit.toNat,
      ?_, ?_, ?_, ?_, ?_, ?_⟩
    · simp only [GetLastConversations, hmiss]
      rw [if_pos hcond]
    · intro c hc
      have hall := (List.mem_insertionSort convLe).mp ((List.take_subset _ _) hc)
      exact ⟨(List.mem_filter.mp hall).1, (List.mem_filter.mp hall).2⟩
    · intro hnc
      rw [hlen] at hcond
      exact absurd hcond hnc
    · exact hsort0.sublist (List.take_sublist _ _)
    · exact sorted_get_lt _ (hsort0.sublist (List.take_sublist _ _))
    · exact sorted_get_none _ (hsort0.sublist (List.take_sublist _ _))
  · refine ⟨List.insertionSort convLe
      ((rowsOf uid st.store).filter (matchesQuery tp since excl)),
      ?_, ?_, ?_, hsort0, sorted_get_lt _ hsort0, sorted_get_none _ hsort0⟩
    · simp only [GetLastConversations, hmiss]
      rw [if_neg hcond]
    · intro c hc
      have hall := (List.mem_insertionSort convLe).mp hc
      exact ⟨(List.mem_filter.mp hall).1, (List.mem_filter.mp hall).2⟩
    · intro _
      exact List.perm_insertionSort _ _

/-- Witness for C5 at a concrete two-row store with no truncation. -/
theorem getlast_cache_miss_spec_witness :
    ∃ l, (GetLastConversations "alice" 1 0 [] 10 sampleState2).1 = Except.ok l ∧
      (∀ c, c ∈ l → c ∈ rowsOf "alice" sampleState2.store ∧
        matchesQuery 1 0 [] c = true) ∧
      (¬((0 : Int) < 10 ∧ (10 : Int) <
          (((rowsOf "alice" sampleState2.store).filter (matchesQuery 1 0 [])).length : Int)) →
        l.Perm ((rowsOf "alice" sampleState2.store).filter (matchesQuery 1 0 []))) ∧
      l.Sorted convLe ∧
      (∀ (i j : Fin l.length) (t1 t2 : Nat),
        (l.get i).UpdatedAt = some t1 → (l.get j).UpdatedAt = some t2 →
        t1 < t2 → (j : Nat) < (i : Nat)) ∧
      (∀ (i j : Fin l.length), (i : Nat) ≤ (j : Nat) →
        (l.get i).UpdatedAt = none → (l.get j).UpdatedAt = none) :=
  getlast_cache_miss_spec "alice" 1 0 [] 10 sampleState2 rfl

/-- Claim C5 (counterexample): with two matching rows and `limit = 1`,
the result omits a matching row, so the result does not "contain
exactly" the matching rows for every limit. -/
theorem getlast_truncation_cex :
    (GetLastConversations "alice" 1 0 [] 1 sampleState2).1 =
      Except.ok [assemble "alice" 8 sampleStore2] ∧
    assemble "alice" 7 sampleStore2 ∈ rowsOf "alice" sampleStore2 ∧
    matchesQuery 1 0 [] (assemble "alice" 7 sampleStore2) = true ∧
    assemble "alice" 7 sampleStore2 ∉ [assemble "alice" 8 sampleStore2] :=
  ⟨rfl, by decide, rfl, by decide⟩

end wkdb

namespace wkdb

theorem lastEffect_untouched (b : Batch) (k : CKey)
    (h : ∀ op ∈ b, opEffect op k = none) : lastEffect b k = none := by
  induction b with
  | nil => rfl
  | cons op rest ih =>
    have h0 : opEffect op k = none := h op (List.mem_cons_self op rest)
    show (op :: rest).foldl (effStep k) none = none
    rw [List.foldl_cons]
    have hstep : effStep k none op = none := by simp [effStep, h0]
    rw [hstep]
    exact ih (fun op' hop' => h op' (List.mem_cons_of_mem _ hop'))

theorem lookup_applyBatch_untouched (s : Store) (b : Batch) (k : CKey)
    (h : ∀ op ∈ b, opEffect op k = none) :
    lookup (applyBatch s b) k = lookup s k := by
  rw [lookup_applyBatch, lastEffect_untouched b k h]
  rfl

theorem lookup_applyBatch_last_set (s : Store) (b1 : Batch) (k : CKey)
    (v : Val) (b2 : Batch) (h2 : ∀ op ∈ b2, opEffect op k = none) :
    lookup (applyBatch s (b1 ++ BOp.set k v :: b2)) k = some v := by
  have hsplit : applyBatch s (b1 ++ BOp.set k v :: b2) =
      applyBatch (applyOp (applyBatch s b1) (BOp.set k v)) b2 := by
    unfold applyBatch
    rw [List.foldl_append, List.foldl_cons]
  rw [hsplit, lookup_applyBatch_untouched _ _ _ h2]
  show lookup (setK _ k v) k = some v
  rw [lookup_setK, if_pos rfl]

theorem lookup_applyBatch_last_del (s : Store) (b1 : Batch) (k : CKey)
    (b2 : Batch) (h2 : ∀ op ∈ b2, opEffect op k = none) :
    lookup (applyBatch s (b1 ++ BOp.del k :: b2)) k = none := by
  have hsplit : applyBatch s (b1 ++ BOp.del k :: b2) =
      applyBatch (applyOp (applyBatch s b1) (BOp.del k)) b2 := by
    unfold applyBatch
    rw [List.foldl_append, List.foldl_cons]
  rw [hsplit, lookup_applyBatch_untouched _ _ _ h2]
  show lookup (delK _ k) k = none
  rw [lookup_delK, if_pos rfl]

end wkdb

namespace wkdb

/-- Claim C2 (amended): upserting an existing logical key through
`AddOrUpdateConversations` (or `AddOrUpdateConversationsWithUser`, which
produces the same store) reuses the old row's Id, deletes the old row's
channel, type and updatedAt index entries before rewriting the new
row's, and — because `CreatedAt` is cleared on both the old row before
`deleteConversationIndex` and the new row before `writeConversation` —
neither writes nor deletes the CreatedAt column or the createdAt
secondary-index entry, so the stored CreatedAt never changes once set
(but the old createdAt index entry is left in place rather than
deleted). -/
theorem upsert_preserves_createdat (shard : String → Nat) (st : DBState)
    (cn old : Conversation)
    (hold : GetConversation cn.Uid cn.ChannelId cn.ChannelType st.store = Except.ok old)
    (hu : old.Uid = cn.Uid) :
    (AddOrUpdateConversations shard [cn] true st).2.store =
      (AddOrUpdateConversationsWithUser cn.Uid [cn] st).2.store ∧
    lookup (AddOrUpdateConversations shard [cn] true st).2.store
      (CKey.channelIdx cn.Uid cn.ChannelId cn.ChannelType) = some (Val.u64 old.Id) ∧
    lookup (AddOrUpdateConversations shard [cn] true st).2.store
      (CKey.column cn.Uid old.Id colCreatedAt) =
      lookup st.store (CKey.column cn.Uid old.Id colCreatedAt) ∧
    (∀ ts, lookup (AddOrUpdateConversations shard [cn] true st).2.store
      (CKey.secondIdx cn.Uid idxCreatedAt ts old.Id) =
      lookup st.store (CKey.secondIdx cn.Uid idxCreatedAt ts old.Id)) ∧
    (cn.tp ≠ old.tp →
      lookup (AddOrUpdateConversations shard [cn] true st).2.store
        (CKey.secondIdx cn.Uid idxType old.tp old.Id) = none) ∧
    (∀ ts, old.UpdatedAt = some ts → cn.UpdatedAt ≠ some ts →
      lookup (AddOrUpdateConversations shard [cn] true st).2.store
        (CKey.secondIdx cn.Uid idxUpdatedAt ts old.Id) = none) := by
  obtain ⟨_, _, _, _, hne⟩ := getConversation_ok _ _ _ _ _ hold
  have hbatch : upsertOps cn st.store =
      writeConversation { cn with Id := old.Id, CreatedAt := none }
        (deleteConversationIndex { old with CreatedAt := none } []) := by
    simp only [upsertOps, hold]
    rw [if_neg hne]
  have hmulti : (AddOrUpdateConversations shard [cn] true st).2.store =
      applyBatch (applyBatch st.store (localUserOps [cn])) (upsertOps cn st.store) := rfl
  have hwith : (AddOrUpdateConversationsWithUser cn.Uid [cn] st).2.store =
      applyBatch (applyBatch st.store (localUserOps [cn])) (upsertOps cn st.store) := rfl
  refine ⟨hmulti.trans hwith.symm, ?_, ?_, ?_, ?_, ?_⟩
  · rw [hmulti, hbatch, lookup_applyBatch, lookup_applyBatch]
    rcases hcu : cn.UpdatedAt with _ | tcu <;> rcases hou : old.UpdatedAt with _ | tou <;>
      simp [writeConversation, deleteConversationIndex, writeConversationIndexOps,
        localUserOps, lastEffect, effStep, opEffect, hcu, hou,
        colUid, colChannelId, colChannelType, colType, colUnreadCount,
        colReadedToMsgSeq, colCreatedAt, colUpdatedAt, colDeletedAtMsgSeq,
        idxType, idxCreatedAt, idxUpdatedAt]
  · rw [hmulti, hbatch, lookup_applyBatch, lookup_applyBatch]
    rcases hcu : cn.UpdatedAt with _ | tcu <;> rcases hou : old.UpdatedAt with _ | tou <;>
      simp [writeConversation, deleteConversationIndex, writeConversationIndexOps,
        localUserOps, lastEffect, effStep, opEffect, hcu, hou,
        colUid, colChannelId, colChannelType, colType, colUnreadCount,
        colReadedToMsgSeq, colCreatedAt, colUpdatedAt, colDeletedAtMsgSeq,
        idxType, idxCreatedAt, idxUpdatedAt]
  · intro ts
    rw [hmulti, hbatch, lookup_applyBatch, lookup_applyBatch]
    rcases hcu : cn.UpdatedAt with _ | tcu <;> rcases hou : old.UpdatedAt with _ | tou <;>
      simp [writeConversation, deleteConversationIndex, writeConversationIndexOps,
        localUserOps, lastEffect, effStep, opEffect, hcu, hou,
        colUid, colChannelId, colChannelType, colType, colUnreadCount,
        colReadedToMsgSeq, colCreatedAt, colUpdatedAt, colDeletedAtMsgSeq,
        idxType, idxCreatedAt, idxUpdatedAt]
  · intro htp
    rw [hmulti, hbatch, lookup_applyBatch, lookup_applyBatch]
    rcases hcu : cn.UpdatedAt with _ | tcu <;> rcases hou : old.UpdatedAt with _ | tou <;>
      simp [writeConversation, deleteConversationIndex, writeConversationIndexOps,
        localUserOps, lastEffect, effStep, opEffect, hcu, hou, hu, Ne.symm htp,
        colUid, colChannelId, colChannelType, colType, colUnreadCount,
        colReadedToMsgSeq, colCreatedAt, colUpdatedAt, colDeletedAtMsgSeq,
        idxType, idxCreatedAt, idxUpdatedAt]
  · intro ts hots hcne
    have htsne : ∀ tcu, cn.UpdatedAt = some tcu → ts ≠ tcu := by
      intro tcu hcu heq
      rw [← heq] at hcu
      exact hcne hcu
    rw [hmulti, hbatch, lookup_applyBatch, lookup_applyBatch]
    rcases hcu : cn.UpdatedAt with _ | tcu
    · simp [writeConversation, deleteConversationIndex, writeConversationIndexOps,
        localUserOps, lastEffect, effStep, opEffect, hcu, hots, hu,
        colUid, colChannelId, colChannelType, colType, colUnreadCount,
        colReadedToMsgSeq, colCreatedAt, colUpdatedAt, colDeletedAtMsgSeq,
        idxType, idxCreatedAt, idxUpdatedAt]
    · have hne2 : ts ≠ tcu := htsne tcu hcu
      simp [writeConversation, deleteConversationIndex, writeConversationIndexOps,
        localUserOps, lastEffect, effStep, opEffect, hcu, hots, hu, hne2,
        colUid, colChannelId, colChannelType, colType, colUnreadCount,
        colReadedToMsgSeq, colCreatedAt, colUpdatedAt, colDeletedAtMsgSeq,
        idxType, idxCreatedAt, idxUpdatedAt]

end wkdb

namespace wkdb

/-- Witness for C2: upserting the (alice, room1, 1) key reuses id 7 and
leaves the CreatedAt column and createdAt index entry untouched. -/
theorem upsert_preserves_createdat_witness :
    (AddOrUpdateConversations (fun _ => 0) [sampleNew] true sampleState).2.store =
      (AddOrUpdateConversationsWithUser "alice" [sampleNew] sampleState).2.store ∧
    lookup (AddOrUpdateConversations (fun _ => 0) [sampleNew] true sampleState).2.store
      (CKey.channelIdx "alice" "room1" 1) = some (Val.u64 7) ∧
    lookup (AddOrUpdateConversations (fun _ => 0) [sampleNew] true sampleState).2.store
      (CKey.column "alice" 7 colCreatedAt) =
      lookup sampleState.store (CKey.column "alice" 7 colCreatedAt) ∧
    (∀ ts, lookup (AddOrUpdateConversations (fun _ => 0) [sampleNew] true sampleState).2.store
      (CKey.secondIdx "alice" idxCreatedAt ts 7) =
      lookup sampleState.store (CKey.secondIdx "alice" idxCreatedAt ts 7)) ∧
    (sampleNew.tp ≠ (assemble "alice" 7 sampleStore).tp →
      lookup (AddOrUpdateConversations (fun _ => 0) [sampleNew] true sampleState).2.store
        (CKey.secondIdx "alice" idxType 1 7) = none) ∧
    (∀ ts, (assemble "alice" 7 sampleStore).UpdatedAt = some ts →
      sampleNew.UpdatedAt ≠ some ts →
      lookup (AddOrUpdateConversations (fun _ => 0) [sampleNew] true sampleState).2.store
        (CKey.secondIdx "alice" idxUpdatedAt ts 7) = none) :=
  upsert_preserves_createdat (fun _ => 0) sampleState sampleNew
    (assemble "alice" 7 sampleStore) rfl rfl

/-- Claim C2 (counterexample): the old row's createdAt secondary-index
entry exists before the upsert and still exists after it — the upsert
does not delete all of the old row's secondary-index entries. -/
theorem upsert_keeps_createdat_index_cex :
    lookup sampleState.store (CKey.secondIdx "alice" idxCreatedAt 100 7) =
      some Val.unit ∧
    lookup (AddOrUpdateConversations (fun _ => 0) [sampleNew] true sampleState).2.store
      (CKey.secondIdx "alice" idxCreatedAt 100 7) = some Val.unit :=
  ⟨rfl, rfl⟩

end wkdb

namespace wkdb

theorem mem_collectIds (uid : String) (s : Store) (id : Nat) :
    id ∈ collectIds uid s ↔ ∃ c v, (CKey.column uid id c, v) ∈ s := by
  unfold collectIds
  rw [List.mem_filterMap]
  constructor
  · rintro ⟨⟨k, v⟩, hmem, hg⟩
    cases k with
    | column u i c =>
      by_cases hu : u = uid
      · simp only [hu, if_pos rfl] at hg
        injection hg with hg
        subst hg
        subst hu
        exact ⟨c, v, hmem⟩
      · simp only [if_neg hu] at hg
        cases hg
    | channelIdx u c t => cases hg
    | secondIdx u k2 v2 i2 => cases hg
    | localUser c t u => cases hg
  · rintro ⟨c, v, hmem⟩
    exact ⟨(CKey.column uid id c, v), hmem, by simp⟩

theorem lookup_some_mem (s : Store) (k : CKey) (v : Val)
    (h : lookup s k = some v) : (k, v) ∈ s := by
  unfold lookup at h
  cases hf : s.find? (fun kv => kv.1 = k) with
  | none => rw [hf] at h; cases h
  | some kv =>
    rw [hf] at h
    have hmem := List.mem_of_find?_eq_some hf
    have hp := List.find?_some hf
    have hk1 : kv.1 = k := by simpa using hp
    have hv1 : kv.2 = v := by simpa using h
    have hkv : kv = (k, v) := by rw [← hk1, ← hv1]
    rw [← hkv]
    exact hmem

theorem rowsOf_eq_cons (uid : String) (s : Store) (i : Nat) (rest : List Nat)
    (hs : sortedIds uid s = i :: rest) :
    rowsOf uid s = if i = 0 ∧ rest ≠ []
      then rest.map (fun j => assemble uid j s)
      else (i :: rest).map (fun j => assemble uid j s) := by
  unfold rowsOf
  rw [hs]

theorem assemble_mem_rowsOf (uid : String) (s : Store) (id : Nat)
    (hid : id ∈ collectIds uid s) (hnz : id ≠ 0) :
    assemble uid id s ∈ rowsOf uid s := by
  have hid2 : id ∈ sortedIds uid s := by
    unfold sortedIds
    rw [List.mem_insertionSort, List.mem_dedup]
    exact hid
  cases hs : sortedIds uid s with
  | nil => rw [hs] at hid2; cases hid2
  | cons i rest =>
    rw [hs] at hid2
    rw [rowsOf_eq_cons uid s i rest hs]
    by_cases hcond : i = 0 ∧ rest ≠ []
    · rw [if_pos hcond]
      rcases List.mem_cons.mp hid2 with h | h
      · exact absurd (h.trans hcond.1) hnz
      · exact List.mem_map_of_mem _ h
    · rw [if_neg hcond]
      exact List.mem_map_of_mem _ hid2

theorem mem_rowsOf (uid : String) (s : Store) (c : Conversation)
    (h : c ∈ rowsOf uid s) :
    c.Id ∈ collectIds uid s ∧ c = assemble uid c.Id s := by
  cases hs : sortedIds uid s with
  | nil =>
    unfold rowsOf at h
    rw [hs] at h
    cases h
  | cons i rest =>
    rw [rowsOf_eq_cons uid s i rest hs] at h
    have hmem : ∃ j ∈ i :: rest, c = assemble uid j s := by
      by_cases hcond : i = 0 ∧ rest ≠ []
      · rw [if_pos hcond] at h
        obtain ⟨j, hj, hcj⟩ := List.mem_map.mp h
        exact ⟨j, List.mem_cons_of_mem _ hj, hcj.symm⟩
      · rw [if_neg hcond] at h
        obtain ⟨j, hj, hcj⟩ := List.mem_map.mp h
        exact ⟨j, hj, hcj.symm⟩
    obtain ⟨j, hj, rfl⟩ := hmem
    have hjs : j ∈ sortedIds uid s := by rw [hs]; exact hj
    have hjc : j ∈ collectIds uid s := by
      unfold sortedIds at hjs
      rw [List.mem_insertionSort, List.mem_dedup] at hjs
      exact hjs
    exact ⟨hjc, rfl⟩

theorem filterMap_filter_eq {α β : Type} (f : α → Option β) (p : α → Bool)
    (l : List α) (h : ∀ a ∈ l, p a = false → f a = none) :
    (l.filter p).filterMap f = l.filterMap f := by
  induction l with
  | nil => rfl
  | cons a tl ih =>
    by_cases hp : p a = true
    · rw [List.filter_cons_of_pos hp, List.filterMap_cons, List.filterMap_cons]
      cases f a <;>
        rw [ih (fun x hx hpx => h x (List.mem_cons_of_mem _ hx) hpx)]
    · have hpf : p a = false := by
        revert hp
        cases p a <;> simp
      rw [List.filter_cons_of_neg (by simp [hpf]), List.filterMap_cons,
        h a (List.mem_cons_self a tl) hpf]
      exact ih (fun x hx hpx => h x (List.mem_cons_of_mem _ hx) hpx)

theorem collectIds_delK_nonColumn (uid : String) (s : Store) (k : CKey)
    (hk : ∀ i c, k ≠ CKey.column uid i c) :
    collectIds uid (delK s k) = collectIds uid s := by
  unfold collectIds delK
  refine filterMap_filter_eq _ _ s ?_
  intro kv _ hpf
  have hkv : kv.1 = k := by simpa using hpf
  show (match kv.1 with
    | CKey.column u i _ => if u = uid then some i else none
    | _ => none) = none
  cases hc : kv.1 with
  | column u i c =>
    rw [hc] at hkv
    by_cases hu : u = uid
    · subst hu
      exact absurd hkv.symm (hk i c)
    · simp [hu]
  | channelIdx u c t => rfl
  | secondIdx u k2 v2 i2 => rfl
  | localUser c t u => rfl

theorem assemble_delK_nonColumn (uid : String) (id : Nat) (s : Store)
    (k : CKey) (hk : ∀ c, k ≠ CKey.column uid id c) :
    assemble uid id (delK s k) = assemble uid id s := by
  have hfield : ∀ c, lookup (delK s k) (CKey.column uid id c) =
      lookup s (CKey.column uid id c) := by
    intro c
    rw [lookup_delK, if_neg (fun hh => hk c hh.symm)]
  unfold assemble
  rw [hfield, hfield, hfield, hfield, hfield, hfield, hfield, hfield, hfield]

theorem getConversation_delK_localUser (uid ch : String) (ct : Nat)
    (s : Store) (lch : String) (lct : Nat) (lu : String) :
    GetConversation uid ch ct (delK s (CKey.localUser lch lct lu)) =
      GetConversation uid ch ct s := by
  have hk1 : ∀ i c, (CKey.localUser lch lct lu : CKey) ≠ CKey.column uid i c := by
    intro i c h
    cases h
  have hlk : lookup (delK s (CKey.localUser lch lct lu))
      (CKey.channelIdx uid ch ct) = lookup s (CKey.channelIdx uid ch ct) := by
    rw [lookup_delK, if_neg (by simp)]
  have hcols : ∀ i, hasCols uid i (delK s (CKey.localUser lch lct lu)) =
      hasCols uid i s := by
    intro i
    unfold hasCols
    rw [collectIds_delK_nonColumn uid s _ (fun i2 c => hk1 i2 c)]
  have hasm : ∀ i, assemble uid i (delK s (CKey.localUser lch lct lu)) =
      assemble uid i s :=
    fun i => assemble_delK_nonColumn uid i s _ (fun c => hk1 i c)
  unfold GetConversation getConversationIdByChannel
  simp only [hlk, hcols, hasm]

theorem getConversation_error (uid ch : String) (ct : Nat) (s : Store)
    (e : Err) (h : GetConversation uid ch ct s = Except.error e) :
    e = Err.notFound := by
  unfold GetConversation at h
  by_cases h0 : getConversationIdByChannel uid ch ct s = 0
  · rw [if_pos h0] at h
    injection h with h
    exact h.symm
  · rw [if_neg h0] at h
    by_cases hemp : (if hasCols uid (getConversationIdByChannel uid ch ct s) s
        then assemble uid (getConversationIdByChannel uid ch ct s) s
        else EmptyConversation) = EmptyConversation
    · rw [if_pos hemp] at h
      injection h with h
      exact h.symm
    · rw [if_neg hemp] at h
      cases h

end wkdb

namespace wkdb

theorem wellFormed_parts (uid : String) (s : Store)
    (h : wellFormed uid s = true) :
    s.all (chanEntryOK uid s) = true ∧ s.all (secEntryOK uid s) = true ∧
    rowUidOK uid s = true := by
  unfold wellFormed at h
  simpa [Bool.and_eq_true, and_assoc] using h

theorem wf_chan (uid : String) (s : Store) (h : wellFormed uid s = true)
    {ch : String} {ct : Nat} {v : Val}
    (hl : lookup s (CKey.channelIdx uid ch ct) = some v)
    (hnz : valU64 (some v) ≠ 0)
    (hcols : hasCols uid (valU64 (some v)) s = true) :
    (assemble uid (valU64 (some v)) s).ChannelId = ch ∧
    (assemble uid (valU64 (some v)) s).ChannelType = ct := by
  have hmem := lookup_some_mem _ _ _ hl
  have hall : s.all (chanEntryOK uid s) = true := (wellFormed_parts uid s h).1
  have hok := List.all_eq_true.mp hall _ hmem
  show _ ∧ _
  revert hok
  show chanEntryOK uid s (CKey.channelIdx uid ch ct, v) = true → _
  unfold chanEntryOK
  simp [hnz, hcols]

theorem wf_sec (uid : String) (s : Store) (h : wellFormed uid s = true)
    {kind value id : Nat} {v : Val}
    (hl : lookup s (CKey.secondIdx uid kind value id) = some v) :
    (kind = idxType ∧ value = (assemble uid id s).tp) ∨
    (kind = idxCreatedAt ∧ (assemble uid id s).CreatedAt = some value) ∨
    (kind = idxUpdatedAt ∧ (assemble uid id s).UpdatedAt = some value) := by
  have hmem := lookup_some_mem _ _ _ hl
  have hall : s.all (secEntryOK uid s) = true := (wellFormed_parts uid s h).2.1
  have hok := List.all_eq_true.mp hall _ hmem
  revert hok
  show secEntryOK uid s (CKey.secondIdx uid kind value id, v) = true → _
  unfold secEntryOK
  simp only [beq_self_eq_true, Bool.not_true, Bool.false_or, Bool.or_eq_true,
    Bool.and_eq_true, beq_iff_eq]
  intro hok
  exact or_assoc.mp hok

theorem wf_rowUid (uid : String) (s : Store) (h : wellFormed uid s = true)
    {id : Nat} (hid : id ∈ collectIds uid s) :
    (assemble uid id s).Uid = uid := by
  have hall : rowUidOK uid s = true := (wellFormed_parts uid s h).2.2
  unfold rowUidOK at hall
  have := List.all_eq_true.mp hall _ hid
  simpa using this

theorem lastEffect_no_set (b : Batch) (k : CKey)
    (hns : ∀ op ∈ b, ∀ k' v, op ≠ BOp.set k' v) :
    lastEffect b k =
      if b.any (fun op => (opEffect op k).isSome) then some none else none := by
  unfold lastEffect
  suffices hgen : ∀ (b2 : Batch), (∀ op ∈ b2, ∀ k' v, op ≠ BOp.set k' v) →
      ∀ acc, acc = none ∨ acc = some none →
      b2.foldl (effStep k) acc =
        if b2.any (fun op => (opEffect op k).isSome) then some none else acc by
    exact hgen b hns none (Or.inl rfl)
  intro b2
  induction b2 with
  | nil =>
    intro _ acc _
    simp
  | cons op rest ih =>
    intro hns2 acc hacc
    rw [List.foldl_cons, List.any_cons]
    have hop : opEffect op k = none ∨ opEffect op k = some none := by
      cases op with
      | set k' v => exact absurd rfl (hns2 _ (List.mem_cons_self _ _) k' v)
      | del k' =>
        simp only [opEffect]
        by_cases hc : k = k'
        · rw [if_pos hc]; exact Or.inr rfl
        · rw [if_neg hc]; exact Or.inl rfl
      | delRange u i =>
        simp only [opEffect]
        by_cases hc : inColRange u i k = true
        · rw [if_pos hc]; exact Or.inr rfl
        · rw [if_neg hc]; exact Or.inl rfl
    rcases hop with hop | hop
    · have hstep : effStep k acc op = acc := by simp [effStep, hop]
      have hany : (opEffect op k).isSome = false := by rw [hop]; rfl
      rw [hstep, hany]
      simp only [Bool.false_or]
      exact ih (fun op' h' _ _ => hns2 op' (List.mem_cons_of_mem _ h') _ _) acc hacc
    · have hstep : effStep k acc op = some none := by simp [effStep, hop]
      have hany : (opEffect op k).isSome = true := by rw [hop]; rfl
      rw [hstep, hany]
      simp only [Bool.true_or]
      rw [ih (fun op' h' _ _ => hns2 op' (List.mem_cons_of_mem _ h') _ _)
        (some none) (Or.inr rfl)]
      split <;> rfl

theorem lookup_applyBatch_no_set (b : Batch) (s : Store) (k : CKey)
    (hns : ∀ op ∈ b, ∀ k' v, op ≠ BOp.set k' v) :
    lookup (applyBatch s b) k =
      if b.any (fun op => (opEffect op k).isSome) then none else lookup s k := by
  rw [lookup_applyBatch, lastEffect_no_set b k hns]
  split <;> rfl

theorem foldl_append_mem {α β : Type} (f : α → List β) (l : List α)
    (init : List β) (b : β) :
    b ∈ l.foldl (fun acc a => acc ++ f a) init ↔
      b ∈ init ∨ ∃ a ∈ l, b ∈ f a := by
  induction l generalizing init with
  | nil => simp
  | cons x xs ih =>
    rw [List.foldl_cons, ih]
    simp [List.mem_append, or_assoc]

theorem deleteConversationOps_eq (uid ch : String) (ct : Nat) (s : Store) :
    deleteConversationOps uid ch ct s =
      (getConversationsFor uid ch ct s).foldl
        (fun acc r => acc ++
          (deleteConversationIndex r [] ++ [BOp.delRange uid r.Id])) [] := by
  unfold deleteConversationOps
  congr 1
  funext acc r
  show deleteConversationIndex r acc ++ [BOp.delRange uid r.Id] =
    acc ++ (deleteConversationIndex r [] ++ [BOp.delRange uid r.Id])
  unfold deleteConversationIndex
  simp [List.append_assoc]

end wkdb

namespace wkdb

/-- Claim C7: on a well-formed store, after `DeleteConversation(uid,ch,ct)`
commits, `GetConversation(uid,ch,ct)` returns the `NotFound` sentinel,
and no channel-index or secondary-index key of any row that matched the
logical key remains in the store. -/
theorem delete_conversation_clears (uid ch : String) (ct : Nat)
    (st : DBState) (hwf : wellFormed uid st.store = true) :
    GetConversation uid ch ct (DeleteConversation uid ch ct st).2.store =
      Except.error Err.notFound ∧
    (∀ r ∈ getConversationsFor uid ch ct st.store,
      lookup (DeleteConversation uid ch ct st).2.store
        (CKey.channelIdx uid ch ct) = none ∧
      (∀ kind ts, lookup (DeleteConversation uid ch ct st).2.store
        (CKey.secondIdx uid kind ts r.Id) = none)) := by
  have hrfl : (DeleteConversation uid ch ct st).2.store =
      applyBatch (delK st.store (CKey.localUser ch ct uid))
        (deleteConversationOps uid ch ct st.store) := rfl
  have hnoset : ∀ op ∈ deleteConversationOps uid ch ct st.store,
      ∀ k' v, op ≠ BOp.set k' v := by
    intro op hop k' v heq
    subst heq
    rw [deleteConversationOps_eq, foldl_append_mem] at hop
    rcases hop with h | ⟨r, _, hopr⟩
    · exact absurd h (List.not_mem_nil _)
    · rcases hc : r.CreatedAt with _ | tc <;> rcases hu2 : r.UpdatedAt with _ | tu <;>
        simp [deleteConversationIndex, hc, hu2] at hopr
  have hchar : ∀ r ∈ getConversationsFor uid ch ct st.store,
      r = assemble uid r.Id st.store ∧ r.Id ∈ collectIds uid st.store ∧
      r.Uid = uid ∧ r.ChannelId = ch ∧ r.ChannelType = ct := by
    intro r hr
    unfold getConversationsFor at hr
    have hfil := List.mem_filter.mp hr
    obtain ⟨hidmem, hasm⟩ := mem_rowsOf uid st.store r hfil.1
    have hchan := hfil.2
    simp only [decide_eq_true_eq] at hchan
    have huid : r.Uid = uid := by
      have hwu := wf_rowUid uid st.store hwf hidmem
      rw [← hasm] at hwu
      exact hwu
    exact ⟨hasm, hidmem, huid, hchan.1, hchan.2⟩
  have hchancov : ∀ r ∈ getConversationsFor uid ch ct st.store,
      (deleteConversationOps uid ch ct st.store).any
        (fun op => (opEffect op (CKey.channelIdx uid ch ct)).isSome) = true := by
    intro r hr
    obtain ⟨_, _, huid, hch, hct⟩ := hchar r hr
    rw [deleteConversationOps_eq, List.any_eq_true]
    refine ⟨BOp.del (CKey.channelIdx r.Uid r.ChannelId r.ChannelType), ?_, ?_⟩
    · rw [foldl_append_mem]
      refine Or.inr ⟨r, hr, ?_⟩
      simp [deleteConversationIndex]
    · rw [huid, hch, hct]
      simp [opEffect]
  constructor
  · by_cases hL : getConversationsFor uid ch ct st.store = []
    · have hb : deleteConversationOps uid ch ct st.store = [] := by
        unfold deleteConversationOps
        rw [hL]
        rfl
      rw [hrfl, hb]
      show GetConversation uid ch ct (delK st.store (CKey.localUser ch ct uid)) =
        Except.error Err.notFound
      rw [getConversation_delK_localUser]
      cases hgc : GetConversation uid ch ct st.store with
      | error e => rw [getConversation_error uid ch ct st.store e hgc]
      | ok c =>
        exfalso
        obtain ⟨hid, hnz, hcols, hasm, _⟩ := getConversation_ok _ _ _ _ _ hgc
        obtain ⟨v, hv⟩ : ∃ v, lookup st.store (CKey.channelIdx uid ch ct) = some v := by
          cases hv : lookup st.store (CKey.channelIdx uid ch ct) with
          | none =>
            exfalso
            apply hnz
            rw [← hid]
            unfold getConversationIdByChannel
            rw [hv]
            rfl
          | some v => exact ⟨v, rfl⟩
        have hvid : valU64 (some v) = c.Id := by
          rw [← hid]
          unfold getConversationIdByChannel
          rw [hv]
        have hcc := wf_chan uid st.store hwf hv
          (by rw [hvid]; exact hnz) (by rw [hvid]; exact hcols)
        rw [hvid] at hcc
        have hcolmem : c.Id ∈ collectIds uid st.store := by
          have hcols2 := hcols
          unfold hasCols at hcols2
          simpa using hcols2
        have hmem : c ∈ rowsOf uid st.store := by
          rw [hasm]
          exact assemble_mem_rowsOf uid st.store c.Id hcolmem hnz
        have hcmatched : c ∈ getConversationsFor uid ch ct st.store := by
          unfold getConversationsFor
          rw [List.mem_filter]
          refine ⟨hmem, ?_⟩
          rw [← hasm] at hcc
          simp [hcc.1, hcc.2]
        rw [hL] at hcmatched
        exact absurd hcmatched (List.not_mem_nil _)
    · obtain ⟨r0, hr0⟩ := List.exists_mem_of_ne_nil _ hL
      have hcov := hchancov r0 hr0
      have hchannone : lookup (DeleteConversation uid ch ct st).2.store
          (CKey.channelIdx uid ch ct) = none := by
        rw [hrfl, lookup_applyBatch_no_set _ _ _ hnoset, if_pos hcov]
      unfold GetConversation getConversationIdByChannel
      rw [hchannone]
      rfl
  · intro r hr
    obtain ⟨hasm, hidmem, huid, hch, hct⟩ := hchar r hr
    constructor
    · rw [hrfl, lookup_applyBatch_no_set _ _ _ hnoset, if_pos (hchancov r hr)]
    · intro kind ts
      rw [hrfl, lookup_applyBatch_no_set _ _ _ hnoset]
      by_cases hcov : (deleteConversationOps uid ch ct st.store).any
          (fun op => (opEffect op (CKey.secondIdx uid kind ts r.Id)).isSome) = true
      · rw [if_pos hcov]
      · rw [if_neg hcov]
        rw [lookup_delK, if_neg (by simp)]
        by_contra hsome
        obtain ⟨v, hv⟩ : ∃ v, lookup st.store
            (CKey.secondIdx uid kind ts r.Id) = some v := by
          cases hv : lookup st.store (CKey.secondIdx uid kind ts r.Id) with
          | none => exact absurd hv hsome
          | some v => exact ⟨v, rfl⟩
        have hsec := wf_sec uid st.store hwf hv
        rw [← hasm] at hsec
        apply hcov
        rw [deleteConversationOps_eq, List.any_eq_true]
        rcases hsec with ⟨hk, hts⟩ | ⟨hk, hts⟩ | ⟨hk, hts⟩
        · refine ⟨BOp.del (CKey.secondIdx r.Uid idxType r.tp r.Id), ?_, ?_⟩
          · rw [foldl_append_mem]
            refine Or.inr ⟨r, hr, ?_⟩
            simp [deleteConversationIndex]
          · rw [huid, hk, hts]
            simp [opEffect]
        · refine ⟨BOp.del (CKey.secondIdx r.Uid idxCreatedAt ts r.Id), ?_, ?_⟩
          · rw [foldl_append_mem]
            refine Or.inr ⟨r, hr, ?_⟩
            simp [deleteConversationIndex, hts]
          · rw [huid, hk]
            simp [opEffect]
        · refine ⟨BOp.del (CKey.secondIdx r.Uid idxUpdatedAt ts r.Id), ?_, ?_⟩
          · rw [foldl_append_mem]
            refine Or.inr ⟨r, hr, ?_⟩
            simp [deleteConversationIndex, hts]
          · rw [huid, hk]
            simp [opEffect]

end wkdb

namespace wkdb

/-- Witness for C7 at the concrete one-row store; the well-formedness
hypothesis is checked by evaluation. -/
theorem delete_conversation_clears_witness :
    GetConversation "alice" "room1" 1
        (DeleteConversation "alice" "room1" 1 sampleState).2.store =
      Except.error Err.notFound ∧
    (∀ r ∈ getConversationsFor "alice" "room1" 1 sampleState.store,
      lookup (DeleteConversation "alice" "room1" 1 sampleState).2.store
        (CKey.channelIdx "alice" "room1" 1) = none ∧
      (∀ kind ts, lookup (DeleteConversation "alice" "room1" 1 sampleState).2.store
        (CKey.secondIdx "alice" kind ts r.Id) = none)) :=
  delete_conversation_clears "alice" "room1" 1 sampleState (by decide)

end wkdb
